import Mathlib

/-!
Verification of the beat-synchronized timing engine of the LyricLooper
word player (`Lyric_Looper.py`).

The Python source is shallowly embedded: durations, opacities and
elapsed times become rationals (`ℚ`), Python's `int()` truncation
becomes `pyInt`, and the per-word timing structure of the live playback
loop and of the frame exporter become explicit Lean functions.
-/

namespace LyricLooper

/-! ## TimeModel (`note_values`, `note_to_seconds`, `get_bar_seconds`) -/

/-- Embedding of the dictionary `note_values` (source lines 76-79):
quarter-note multiples for each note token. -/
def note_values : List (String × ℚ) :=
  [("1/32", 1/8), ("1/16", 1/4), ("1/8", 1/2), ("1/4", 1),
   ("1/2", 2), ("1", 4), ("2", 8), ("4", 16), ("8", 32), ("16", 64)]

/-- Embedding of `self.note_values.get(note_str, 1)`: look the token up,
defaulting to 1 for unknown tokens, exactly as Python `dict.get`. -/
def noteFactor (note : String) : ℚ :=
  ((note_values.lookup note).getD 1)

/-- Embedding of `note_to_seconds` (source lines 442-445): the token `"0"`
maps to 0 seconds; every other token maps to `noteFactor * 60 / bpm`. -/
def note_to_seconds (note : String) (bpm : ℚ) : ℚ :=
  if note = "0" then 0 else noteFactor note * 60 / bpm

/-- Embedding of `get_bar_seconds` (source lines 447-448). -/
def get_bar_seconds (tsNum bpm : ℚ) : ℚ := tsNum * 60 / bpm

/-! ## Python numeric primitives -/

/-- Python's `int()` applied to a rational: truncation toward zero. -/
def pyInt (q : ℚ) : ℤ := if 0 ≤ q then ⌊q⌋ else ⌈q⌉

/-- Rounding to the nearest integer (halves up), used to state the
spec's `round(...)` claims against the code's truncating `int(...)`. -/
def roundNearest (q : ℚ) : ℤ := ⌊q + 1/2⌋

/-! ## BlendFunction

The live preview blends in `blend_color` (source line 566):
`int(f * opacity + b * (1 - opacity))` per channel.  The export
renderer `_render_frame` blends with the same expression
(source lines 1155 and 1162).  Each is embedded separately so that
their agreement is a theorem, not a modelling assumption. -/

/-- Per-channel blend of the live-preview path, from `blend_color`
(source line 566). -/
def blend_channel (f b : ℕ) (opacity : ℚ) : ℤ :=
  pyInt ((f : ℚ) * opacity + (b : ℚ) * (1 - opacity))

/-- Per-channel blend of the export path, from `_render_frame`
(source lines 1155/1162). -/
def render_channel (f b : ℕ) (opacity : ℚ) : ℤ :=
  pyInt ((f : ℚ) * opacity + (b : ℚ) * (1 - opacity))

/-- The live path's full RGB blend (`blend_color`), channelwise. -/
def blend_color (fg bg : ℕ × ℕ × ℕ) (opacity : ℚ) : ℤ × ℤ × ℤ :=
  (blend_channel fg.1 bg.1 opacity,
   blend_channel fg.2.1 bg.2.1 opacity,
   blend_channel fg.2.2 bg.2.2 opacity)

/-! ## PlaybackTimeline: per-word segments of the live loop

`_playback_loop` (source lines 711-789) renders one word as:
fade-in (only if `fade_in > 0`; cross-dissolving with the previous word
when `gap < 0` and a previous word exists), a hold of
`max(0.01, word_dur - fade_in - fade_out)`, a fade-out only if
`fade_out > 0 and gap >= 0`, and a blank gap only if `gap > 0`. -/

inductive SegKind where
  | FadeIn | Hold | FadeOut | Gap
deriving DecidableEq, Repr

structure Segment where
  kind : SegKind
  duration : ℚ
  /-- the segment cross-dissolves with the previous word -/
  crossFade : Bool
deriving DecidableEq, Repr

/-- The hold-duration epsilon `0.01` from `max(0.01, ...)` (source line 741). -/
def EPS : ℚ := 1/100

/-- The ordered segments the live loop emits for one word
(source lines 711-789). `hasPrev` is `current_word_index > start_idx`. -/
def wordSegments (word_dur fade_in fade_out gap : ℚ) (hasPrev : Bool) : List Segment :=
  (if 0 < fade_in then [Segment.mk SegKind.FadeIn fade_in (decide (gap < 0) && hasPrev)] else [])
  ++ [Segment.mk SegKind.Hold (max EPS (word_dur - fade_in - fade_out)) false]
  ++ (if 0 < fade_out ∧ 0 ≤ gap then [Segment.mk SegKind.FadeOut fade_out false] else [])
  ++ (if 0 < gap then [Segment.mk SegKind.Gap gap false] else [])

/-- Total nominal duration of a list of segments. -/
def segsDuration (l : List Segment) : ℚ := (l.map Segment.duration).sum

/-- All segments of one AllWords pass playing `count` words; only the
first word of the pass lacks a previous word. -/
def livePassSegments (word_dur fade_in fade_out gap : ℚ) (count : ℕ) : List Segment :=
  ((List.range count).map (fun i => wordSegments word_dur fade_in fade_out gap (decide (0 < i)))).flatten

/-- Embedding of the duration readout `update_duration_display`
(source lines 479-508): `single_pass = max(0, word_count * word_dur +
(word_count - 1) * gap)` with `word_count = len(words) - start_idx`. -/
def single_pass_display (n s : ℤ) (word_dur gap : ℚ) : ℚ :=
  max 0 ((n - (s - 1) : ℤ) * word_dur + ((n - (s - 1) : ℤ) - 1) * gap)

/-- The total-duration formula asserted by the spec for one AllWords
pass: `Σ wordDuration + (N - S) * max(0, gap)`. -/
def claimedPassDuration (n s : ℤ) (word_dur gap : ℚ) : ℚ :=
  (n - s + 1 : ℤ) * word_dur + (n - s : ℤ) * max 0 gap

/-! ## Live ByBars time-boxing

In ByBars loop mode the live loop checks, before starting each word,
`time.time() - loop_start >= bar_duration` and breaks out of the pass
when the budget is reached (source lines 703-706).  The check happens
only between words; a started word always plays all its segments.
Nominal time: each played word advances the clock by exactly its
segment total `d`. -/

/-- Number of words a ByBars live pass emits: `n` words remain, the
nominal clock reads `t`, the budget is `budget`; each emitted word
advances the clock by `d` (source lines 695-706 and 791). -/
def liveWordsEmitted (d budget : ℚ) : ℕ → ℚ → ℕ
  | 0, _ => 0
  | n + 1, t => if budget ≤ t then 0 else liveWordsEmitted d budget n (t + d) + 1

/-! ## FrameExporter (`_export_thread`)

The exporter turns durations into frame counts with Python `int()`
(source lines 1021-1025) and emits each word as four frame blocks,
each block checking `loop_frames >= bar_limit` before every frame
(source lines 1056-1107).  `bar_limit` is a frame count in ByBars mode
and `float('inf')` otherwise, modelled as `Option ℕ` (`none` = ∞). -/

/-- `fade_in_f = int(fade_in * fps)` (source line 1021). -/
def fade_in_f (fade_in fps : ℚ) : ℤ := pyInt (fade_in * fps)

/-- `fade_out_f = int(fade_out * fps)` (source line 1022). -/
def fade_out_f (fade_out fps : ℚ) : ℤ := pyInt (fade_out * fps)

/-- `word_f = int(word_dur * fps)` (source line 1023). -/
def word_f (word_dur fps : ℚ) : ℤ := pyInt (word_dur * fps)

/-- `gap_f = int(abs(gap) * fps) if gap > 0 else 0` (source line 1024). -/
def gap_f (gap fps : ℚ) : ℤ := if 0 < gap then pyInt (|gap| * fps) else 0

/-- `main_f = max(1, word_f - fade_in_f - fade_out_f)` (source line 1025). -/
def main_f (word_dur fade_in fade_out fps : ℚ) : ℤ :=
  max 1 (word_f word_dur fps - fade_in_f fade_in fps - fade_out_f fade_out fps)

/-- `loop_frames >= bar_limit`, with `none` standing for the infinite
limit of the non-ByBars modes (source line 1059). -/
def atLimit (barLimit : Option ℕ) (u : ℕ) : Bool :=
  match barLimit with
  | none => false
  | some b => decide (b ≤ u)

/-- One frame block of the exporter: `for i in range(m)` emitting one
frame per step unless `loop_frames >= bar_limit` breaks the block.
Returns the updated `loop_frames`. -/
def runBlock (barLimit : Option ℕ) : ℕ → ℕ → ℕ
  | 0, u => u
  | m + 1, u => if atLimit barLimit u then u else runBlock barLimit m (u + 1)

/-- The frames of one exported word: fade-in block, main block, the
fade-out block only when `gap >= 0` (source line 1089), and the gap
block only when `gap > 0` (source line 1099). -/
def runWord (gap : ℚ) (fiF mainF foF gapF : ℕ) (barLimit : Option ℕ) (u : ℕ) : ℕ :=
  let u1 := runBlock barLimit fiF u
  let u2 := runBlock barLimit mainF u1
  let u3 := if 0 ≤ gap then runBlock barLimit foF u2 else u2
  if 0 < gap then runBlock barLimit gapF u3 else u3

/-- One export pass: `while word_idx < len(words) and loop_frames <
bar_limit` (source line 1061), emitting word after word.  Returns the
final `loop_frames`. -/
def runPass (gap : ℚ) (fiF mainF foF gapF : ℕ) (barLimit : Option ℕ) : ℕ → ℕ → ℕ
  | 0, u => u
  | n + 1, u =>
    if atLimit barLimit u then u
    else runPass gap fiF mainF foF gapF barLimit n (runWord gap fiF mainF foF gapF barLimit u)

/-- `loops = 1 if self.loop_infinite.get() else self.loop_times.get()`
when looping is enabled, else a single pass (source lines 1034-1041). -/
def exportLoops (enabled infinite : Bool) (loopTimes : ℕ) : ℕ :=
  if enabled then (if infinite then 1 else loopTimes) else 1

/-- `for loop in range(loops)` (source line 1056): total frames written
across all loop iterations; `loop_frames` restarts at 0 each pass. -/
def exportTotalFrames (gap : ℚ) (fiF mainF foF gapF : ℕ) (barLimit : Option ℕ)
    (n : ℕ) : ℕ → ℕ
  | 0 => 0
  | l + 1 => exportTotalFrames gap fiF mainF foF gapF barLimit n l
      + runPass gap fiF mainF foF gapF barLimit n 0

/-- Exported fade-out frames of one word when the budget does not
interfere: the block is guarded by `gap >= 0` and runs
`range(fade_out_f)` (source lines 1089-1096). -/
def exportFadeOutCount (gap fade_out fps : ℚ) : ℕ :=
  if 0 ≤ gap then (fade_out_f fade_out fps).toNat else 0

/-! ## Cross-dissolve opacity samples

Live fade-in (source lines 712-734): 21 steps `op = i / fade_steps`,
previous-word opacity `1 - op` exactly when `gap < 0` and a previous
word exists.  Export fade-in (source lines 1071-1078): `fade_in_f`
frames with `op = i / fade_in_f` and `pop = 1 - op if gap < 0 and
prev_word else 0.0`. -/

/-- `fade_steps = 20` (source line 667). -/
def fade_steps : ℕ := 20

/-- The (incoming, outgoing) opacity pairs sampled by the live fade-in
loop (source lines 729-733). -/
def liveFadeInSamples (gap : ℚ) (hasPrev : Bool) : List (ℚ × ℚ) :=
  (List.range (fade_steps + 1)).map (fun i : ℕ =>
    ((i : ℚ) / fade_steps,
     if gap < 0 ∧ hasPrev then 1 - (i : ℚ) / fade_steps else 0))

/-- The (incoming, outgoing) opacity pairs of the exported fade-in
frames (source lines 1071-1075). -/
def exportFadeInSamples (gap : ℚ) (hasPrev : Bool) (fiF : ℕ) : List (ℚ × ℚ) :=
  (List.range fiF).map (fun i : ℕ =>
    let op : ℚ := if 0 < fiF then (i : ℚ) / fiF else 1
    (op, if gap < 0 ∧ hasPrev then 1 - op else 0))

/-! ## MetronomeClock

The live loop keeps `metro_beat` and `next_beat = metro_beat * spb`;
every polling site runs: if `elapsed >= next_beat` then tick with beat
index `metro_beat`, then `metro_beat += 1; next_beat = metro_beat * spb`
(source lines 717-727, 744-754, 762-770, 779-788).  A run is the fold
of that step over the list of elapsed-time queries. -/

/-- Beat indices ticked over a list of elapsed-time queries, starting
from beat counter `mb` (initially 0, source lines 688-689). -/
def metroRun (spb : ℚ) : ℕ → List ℚ → List ℕ
  | _, [] => []
  | mb, e :: es =>
    if (mb : ℚ) * spb ≤ e then mb :: metroRun spb (mb + 1) es
    else metroRun spb mb es

/-- The final beat counter after a list of elapsed-time queries. -/
def metroFinal (spb : ℚ) : ℕ → List ℚ → ℕ
  | mb, [] => mb
  | mb, e :: es =>
    if (mb : ℚ) * spb ≤ e then metroFinal spb (mb + 1) es
    else metroFinal spb mb es

/-! ## Helper lemmas -/

theorem pyInt_eq_floor {q : ℚ} (h : 0 ≤ q) : pyInt q = ⌊q⌋ := if_pos h

theorem blend_channel_eq_floor (f b : ℕ) (op : ℚ) (h0 : 0 ≤ op) (h1 : op ≤ 1) :
    blend_channel f b op = ⌊(f : ℚ) * op + (b : ℚ) * (1 - op)⌋ := by
  unfold blend_channel
  exact pyInt_eq_floor (add_nonneg
    (mul_nonneg (Nat.cast_nonneg f) h0)
    (mul_nonneg (Nat.cast_nonneg b) (by linarith)))

theorem segsDuration_append (a b : List Segment) :
    segsDuration (a ++ b) = segsDuration a + segsDuration b := by
  simp [segsDuration]

/-- Nominal duration of one word's live segments: `wordDuration + max
0 gap`, except that with a negative gap the skipped fade-out is still
subtracted from the hold, so the word lasts `wordDuration - fadeOut`. -/
theorem wordSegments_duration (wd fi fo g : ℚ) (hp : Bool)
    (hfi : 0 ≤ fi) (hfo : 0 ≤ fo) (hwd : fi + fo + EPS ≤ wd) :
    segsDuration (wordSegments wd fi fo g hp) =
      wd + max 0 g - (if g < 0 then fo else 0) := by
  unfold wordSegments
  simp only [max_def]
  split_ifs <;>
    simp only [segsDuration, List.map_append, List.sum_append, List.map_cons,
      List.map_nil, List.sum_cons, List.sum_nil, List.append_nil, List.nil_append] <;>
    first
      | linarith
      | (obtain ⟨ha, hb⟩ := ‹0 < fo ∧ 0 ≤ g›; linarith)
      | (rcases not_and_or.mp ‹¬(0 < fo ∧ 0 ≤ g)› with h' | h' <;> push_neg at h' <;>
          linarith)

theorem livePassSegments_duration (wd fi fo g : ℚ)
    (hfi : 0 ≤ fi) (hfo : 0 ≤ fo) (hwd : fi + fo + EPS ≤ wd) :
    ∀ count : ℕ, segsDuration (livePassSegments wd fi fo g count) =
      count * (wd + max 0 g - (if g < 0 then fo else 0)) := by
  intro count
  induction count with
  | zero => simp [livePassSegments, segsDuration]
  | succ k ih =>
    unfold livePassSegments at ih ⊢
    rw [List.range_succ, List.map_append, List.flatten_append, segsDuration_append, ih]
    simp only [List.map_cons, List.map_nil, List.flatten_cons, List.flatten_nil,
      List.append_nil]
    rw [wordSegments_duration wd fi fo g _ hfi hfo hwd]
    push_cast
    ring

/-! ## Claim C1 (AllWords single-pass total duration) -/

/-- Claim C1, counterexample: with 2 words, startIndex 1, wordDuration
1/2 s, no fades and gap 1/2 s, the realized playback emits a gap after
the last word too, totalling 2 s against the claimed 3/2 s; and with
gap = -1/4 s the duration display applies the SIGNED gap, showing 3/4 s
against the claimed 1 s. -/
theorem c1_counterexample :
    segsDuration (livePassSegments (1/2) 0 0 (1/2) 2) ≠ claimedPassDuration 2 1 (1/2) (1/2) ∧
    single_pass_display 2 1 (1/2) (-1/4) ≠ claimedPassDuration 2 1 (1/2) (-1/4) := by
  constructor
  · rw [livePassSegments_duration (1/2) 0 0 (1/2) le_rfl le_rfl (by norm_num [EPS]) 2]
    unfold claimedPassDuration
    norm_num [max_def]
  · unfold single_pass_display claimedPassDuration
    norm_num [max_def]

/-- Claim C1, amended: for words `S..N` (1 ≤ S ≤ N) with fades fitting
inside the word (`fadeIn + fadeOut + 0.01 ≤ wordDuration`), the
duration display computes `max 0 (Σ wordDuration + (N-S) * gap)` with
the SIGNED gap (so a negative gap reduces the displayed total), while
the realized playback totals `Σ wordDuration + (N-S+1) * max 0 gap`
minus, when gap < 0, one skipped fade-out per word: the positive gap is
applied after every played word including the last, not only between
words. -/
theorem c1_amended (n s : ℕ) (wd fi fo g : ℚ)
    (hs : 1 ≤ s) (hsn : s ≤ n) (hfi : 0 ≤ fi) (hfo : 0 ≤ fo)
    (hwd : fi + fo + EPS ≤ wd) :
    single_pass_display n s wd g =
      max 0 (((n : ℚ) - s + 1) * wd + ((n : ℚ) - s) * g) ∧
    segsDuration (livePassSegments wd fi fo g (n - s + 1)) =
      ((n : ℚ) - s + 1) * (wd + max 0 g) -
        (if g < 0 then ((n : ℚ) - s + 1) * fo else 0) := by
  constructor
  · unfold single_pass_display
    congr 1
    push_cast
    ring
  · rw [livePassSegments_duration wd fi fo g hfi hfo hwd]
    have hc : ((n - s + 1 : ℕ) : ℚ) = (n : ℚ) - s + 1 := by
      rw [Nat.cast_add, Nat.cast_sub hsn, Nat.cast_one]
    rw [hc]
    split_ifs with hg <;> ring

theorem c1_amended_witness :
    single_pass_display 3 2 1 (1/4) =
      max 0 (((3 : ℚ) - 2 + 1) * 1 + ((3 : ℚ) - 2) * (1/4)) ∧
    segsDuration (livePassSegments 1 (1/10) (1/10) (1/4) (3 - 2 + 1)) =
      ((3 : ℚ) - 2 + 1) * (1 + max 0 (1/4)) -
        (if (1/4 : ℚ) < 0 then ((3 : ℚ) - 2 + 1) * (1/10) else 0) :=
  c1_amended 3 2 1 (1/10) (1/10) (1/4) (by norm_num) (by norm_num) (by norm_num)
    (by norm_num) (by norm_num [EPS])

/-! ## Claim C5 (note-to-seconds conversion) -/

/-- Claim C5, counterexample: the code's no-duration token is spelled
`"0"`, not `"none"`; `note_to_seconds` on the literal token `"none"`
falls back to the default factor 1 and returns `60 / bpm ≠ 0`
(at bpm 120 it returns 1/2). -/
theorem c5_counterexample :
    note_to_seconds "none" 120 = 1/2 ∧ ¬ note_to_seconds "none" 120 = 0 := by
  have h : noteFactor "none" = 1 := rfl
  unfold note_to_seconds
  rw [if_neg (by decide : ¬("none" = "0")), h]
  norm_num

/-- Claim C5, amended: for every bpm in the valid range 20-300, the
conversion returns 0 for the code's no-duration token `"0"` (the spec's
"none"), and `noteFactor(note) * 60 / bpm` for the listed note tokens,
with `"1/4"` → 1, `"1/2"` → 2, `"1"` → 4, `"1/32"` → 1/8; in particular
`note_to_seconds "1/4" 120 = 1/2`. -/
theorem c5_amended (bpm : ℚ) (h1 : 20 ≤ bpm) (h2 : bpm ≤ 300) :
    note_to_seconds "0" bpm = 0 ∧
    note_to_seconds "1/4" bpm = 1 * 60 / bpm ∧
    note_to_seconds "1/2" bpm = 2 * 60 / bpm ∧
    note_to_seconds "1" bpm = 4 * 60 / bpm ∧
    note_to_seconds "1/32" bpm = (1/8) * 60 / bpm ∧
    note_to_seconds "1/4" 120 = 1/2 := by
  have key : ∀ (s : String) (fac : ℚ), ¬(s = "0") → noteFactor s = fac →
      ∀ b : ℚ, note_to_seconds s b = fac * 60 / b := by
    intro s fac hs hf b
    unfold note_to_seconds
    rw [if_neg hs, hf]
  refine ⟨rfl, key "1/4" 1 (by decide) rfl bpm, key "1/2" 2 (by decide) rfl bpm,
    key "1" 4 (by decide) rfl bpm, key "1/32" (1/8) (by decide) rfl bpm, ?_⟩
  rw [key "1/4" 1 (by decide) rfl 120]
  norm_num

theorem c5_amended_witness :
    note_to_seconds "0" 120 = 0 ∧
    note_to_seconds "1/4" 120 = 1 * 60 / 120 ∧
    note_to_seconds "1/2" 120 = 2 * 60 / 120 ∧
    note_to_seconds "1" 120 = 4 * 60 / 120 ∧
    note_to_seconds "1/32" 120 = (1/8) * 60 / 120 ∧
    note_to_seconds "1/4" 120 = 1/2 :=
  c5_amended 120 (by norm_num) (by norm_num)

/-! ## Claim C6 (blend rounding) -/

/-- Claim C6, counterexample: at foreground channel 255, background
channel 0 and opacity 1/2 the code's `int(...)` truncation yields 127,
while rounding to the nearest integer yields 128. -/
theorem c6_counterexample :
    blend_channel 255 0 (1/2) = 127 ∧
    roundNearest ((255 : ℚ) * (1/2) + (0 : ℚ) * (1 - 1/2)) = 128 := by
  constructor
  · rw [blend_channel_eq_floor 255 0 (1/2) (by norm_num) (by norm_num)]
    norm_num
  · unfold roundNearest
    rw [show (255 : ℚ) * (1/2) + (0 : ℚ) * (1 - 1/2) + 1/2 = 128 by norm_num]
    norm_num

/-- Claim C6, amended: for every foreground, background and opacity in
[0,1], each output channel of the blend is the FLOOR (Python `int`
truncation, which on these non-negative values is the floor) of
`fg*opacity + bg*(1-opacity)`, not the nearest integer. -/
theorem c6_amended (fg bg : ℕ × ℕ × ℕ) (op : ℚ) (h0 : 0 ≤ op) (h1 : op ≤ 1) :
    blend_color fg bg op =
      (⌊(fg.1 : ℚ) * op + (bg.1 : ℚ) * (1 - op)⌋,
       ⌊(fg.2.1 : ℚ) * op + (bg.2.1 : ℚ) * (1 - op)⌋,
       ⌊(fg.2.2 : ℚ) * op + (bg.2.2 : ℚ) * (1 - op)⌋) := by
  unfold blend_color
  rw [blend_channel_eq_floor _ _ _ h0 h1, blend_channel_eq_floor _ _ _ h0 h1,
    blend_channel_eq_floor _ _ _ h0 h1]

theorem c6_amended_witness :
    blend_color (255, 128, 0) (0, 0, 255) (1/2) =
      (⌊((255, 128, 0).1 : ℚ) * (1/2) + (((0, 0, 255) : ℕ × ℕ × ℕ).1 : ℚ) * (1 - 1/2)⌋,
       ⌊(((255, 128, 0) : ℕ × ℕ × ℕ).2.1 : ℚ) * (1/2) + (((0, 0, 255) : ℕ × ℕ × ℕ).2.1 : ℚ) * (1 - 1/2)⌋,
       ⌊(((255, 128, 0) : ℕ × ℕ × ℕ).2.2 : ℚ) * (1/2) + (((0, 0, 255) : ℕ × ℕ × ℕ).2.2 : ℚ) * (1 - 1/2)⌋) :=
  c6_amended (255, 128, 0) (0, 0, 255) (1/2) (by norm_num) (by norm_num)

/-! ## Claim C7 (exporter frame counts) -/

/-- Claim C7, counterexample: with fade-in duration 1/8 s (note token
"1/8" at bpm 240) and fps 30 the code allots `int(0.125*30) = int(3.75)
= 3` frames, while `round(3.75) = 4`. -/
theorem c7_counterexample :
    fade_in_f (1/8) 30 = 3 ∧ roundNearest ((1/8) * 30) = 4 := by
  constructor
  · rw [show fade_in_f (1/8) 30 = pyInt ((1/8 : ℚ) * 30) from rfl,
      pyInt_eq_floor (by norm_num)]
    rw [show (1/8 : ℚ) * 30 = 15/4 by norm_num]
    norm_num [Int.floor_eq_iff]
  · unfold roundNearest
    rw [show (1/8 : ℚ) * 30 + 1/2 = 17/4 by norm_num]
    norm_num [Int.floor_eq_iff]

/-- Claim C7, amended: the exporter allots `⌊segmentDuration * fps⌋`
frames (Python `int` truncation, the floor on these non-negative
products) to each phase — not `round`: fade-in `⌊fadeIn*fps⌋`, fade-out
`⌊fadeOut*fps⌋`, gap `⌊gap*fps⌋` when gap > 0, and hold = the word's
total frames minus the fade frames, floored at a minimum of 1. -/
theorem c7_amended (word_dur fade_in fade_out gap fps : ℚ)
    (hwd : 0 ≤ word_dur) (hfi : 0 ≤ fade_in) (hfo : 0 ≤ fade_out) (hfps : 0 ≤ fps) :
    fade_in_f fade_in fps = ⌊fade_in * fps⌋ ∧
    fade_out_f fade_out fps = ⌊fade_out * fps⌋ ∧
    word_f word_dur fps = ⌊word_dur * fps⌋ ∧
    (0 < gap → gap_f gap fps = ⌊gap * fps⌋) ∧
    main_f word_dur fade_in fade_out fps =
      max 1 (⌊word_dur * fps⌋ - ⌊fade_in * fps⌋ - ⌊fade_out * fps⌋) := by
  have e1 : fade_in_f fade_in fps = ⌊fade_in * fps⌋ :=
    pyInt_eq_floor (mul_nonneg hfi hfps)
  have e2 : fade_out_f fade_out fps = ⌊fade_out * fps⌋ :=
    pyInt_eq_floor (mul_nonneg hfo hfps)
  have e3 : word_f word_dur fps = ⌊word_dur * fps⌋ :=
    pyInt_eq_floor (mul_nonneg hwd hfps)
  refine ⟨e1, e2, e3, ?_, ?_⟩
  · intro hg
    unfold gap_f
    rw [if_pos hg, abs_of_pos hg]
    exact pyInt_eq_floor (mul_nonneg hg.le hfps)
  · unfold main_f
    rw [e1, e2, e3]

theorem c7_amended_witness :
    fade_in_f (1/8) 30 = ⌊(1/8 : ℚ) * 30⌋ ∧
    fade_out_f (1/8) 30 = ⌊(1/8 : ℚ) * 30⌋ ∧
    word_f (1/2) 30 = ⌊(1/2 : ℚ) * 30⌋ ∧
    ((0 : ℚ) < 1/4 → gap_f (1/4) 30 = ⌊(1/4 : ℚ) * 30⌋) ∧
    main_f (1/2) (1/8) (1/8) 30 =
      max 1 (⌊(1/2 : ℚ) * 30⌋ - ⌊(1/8 : ℚ) * 30⌋ - ⌊(1/8 : ℚ) * 30⌋) :=
  c7_amended (1/2) (1/8) (1/8) (1/4) 30 (by norm_num) (by norm_num) (by norm_num) (by norm_num)

/-! ## Claim C8 (live and export paths blend identically) -/

/-- Claim C8, confirmed: the live-preview blend (`blend_color`, source
line 566) and the export blend (`_render_frame`, source lines 1155 and
1162) perform the identical per-channel computation, so every input
triple (foreground channel, background channel, opacity) produces the
same blended value in both paths. -/
theorem c8_blend_paths_agree :
    ∀ (f b : ℕ) (op : ℚ), blend_channel f b op = render_channel f b op :=
  fun _ _ _ => rfl

theorem liveWordsEmitted_eq (d budget : ℚ) (hd : 0 < d) :
    ∀ (n : ℕ) (t : ℚ), liveWordsEmitted d budget n t =
      min n (⌈(budget - t) / d⌉.toNat) := by
  intro n
  induction n with
  | zero => intro t; simp [liveWordsEmitted]
  | succ k ih =>
    intro t
    unfold liveWordsEmitted
    split_ifs with h
    · have hx : (budget - t) / d ≤ 0 :=
        div_nonpos_iff.mpr (Or.inr ⟨by linarith, hd.le⟩)
      have h1 : ⌈(budget - t) / d⌉ ≤ (0 : ℤ) := Int.ceil_le.mpr (by exact_mod_cast hx)
      have h2 : (⌈(budget - t) / d⌉).toNat = 0 := by omega
      rw [h2]
      simp
    · rw [ih (t + d)]
      have h1 : 0 < (budget - t) / d := div_pos (by linarith) hd
      have h2 : (1 : ℤ) ≤ ⌈(budget - t) / d⌉ := Int.ceil_pos.mpr h1
      have h3 : (budget - (t + d)) / d = (budget - t) / d - (1 : ℤ) := by
        push_cast
        field_simp
        ring
      rw [h3, Int.ceil_sub_int]
      generalize hz : ⌈(budget - t) / d⌉ = z at h2 ⊢
      omega

theorem runBlock_some (b : ℕ) : ∀ (m u : ℕ), runBlock (some b) m u = u + min m (b - u) := by
  intro m
  induction m with
  | zero => intro u; simp [runBlock]
  | succ k ih =>
    intro u
    unfold runBlock
    by_cases h : b ≤ u
    · rw [if_pos (by simpa [atLimit] using h)]
      omega
    · rw [if_neg (by simpa [atLimit] using h), ih (u + 1)]
      omega

theorem runWord_some (gap : ℚ) (fiF mainF foF gapF b u : ℕ) :
    runWord gap fiF mainF foF gapF (some b) u =
      u + min (fiF + mainF + (if 0 ≤ gap then foF else 0) +
        (if 0 < gap then gapF else 0)) (b - u) := by
  unfold runWord
  split_ifs with h1 h2 <;> simp only [runBlock_some] <;> omega

theorem runPass_at_limit (gap : ℚ) (fiF mainF foF gapF b : ℕ) :
    ∀ n, runPass gap fiF mainF foF gapF (some b) n b = b := by
  intro n
  cases n with
  | zero => rfl
  | succ k =>
    unfold runPass
    rw [if_pos (by simp [atLimit])]

theorem runPass_some (gap : ℚ) (fiF mainF foF gapF b : ℕ) :
    ∀ (n u : ℕ), u ≤ b →
      runPass gap fiF mainF foF gapF (some b) n u =
        min (u + n * (fiF + mainF + (if 0 ≤ gap then foF else 0) +
          (if 0 < gap then gapF else 0))) b := by
  intro n
  induction n with
  | zero =>
    intro u hu
    simp only [runPass, Nat.zero_mul, Nat.add_zero]
    omega
  | succ k ih =>
    intro u hu
    unfold runPass
    by_cases h : b ≤ u
    · rw [if_pos (by simpa [atLimit] using h)]
      have hub : u = b := le_antisymm hu h
      rw [hub]
      exact (min_eq_right (Nat.le_add_right b _)).symm
    · rw [if_neg (by simpa [atLimit] using h), runWord_some]
      push_neg at h
      set w := fiF + mainF + (if 0 ≤ gap then foF else 0) + (if 0 < gap then gapF else 0)
      have hu2 : u + min w (b - u) ≤ b := by omega
      rw [ih (u + min w (b - u)) hu2]
      rcases le_or_lt w (b - u) with hcase | hcase
      · rw [min_eq_left hcase]
        congr 1
        rw [Nat.succ_mul]
        ring
      · rw [min_eq_right hcase.le]
        have h5 : w ≤ (k + 1) * w := Nat.le_mul_of_pos_left w (Nat.succ_pos k)
        generalize (k + 1) * w = z2 at h5 ⊢
        generalize k * w = z1
        omega

/-! ## Claim C2 (ByBars time-boxing of a pass) -/

/-- Claim C2, counterexample: with budget 2 s (1 bar of 4/4 at 120 bpm)
and word duration 3/2 s, the live loop checks the budget only before
starting a word, so it plays 2 complete words whose segments total 3 s:
the pass is NOT pre-empted mid-word when the budget expires at 2 s. -/
theorem c2_counterexample :
    liveWordsEmitted (3/2) 2 5 0 = 2 ∧
    segsDuration (livePassSegments (3/2) 0 0 0 (liveWordsEmitted (3/2) 2 5 0)) = 3 ∧
    ¬ segsDuration (livePassSegments (3/2) 0 0 0 (liveWordsEmitted (3/2) 2 5 0)) ≤ 2 := by
  have h : liveWordsEmitted (3/2) 2 5 0 = 2 := by
    rw [liveWordsEmitted_eq (3/2) 2 (by norm_num) 5 0]
    have h1 : ((2 : ℚ) - 0) / (3/2) = 4/3 := by norm_num
    rw [h1]
    have h2 : ⌈(4/3 : ℚ)⌉ = 2 := by
      rw [Int.ceil_eq_iff]
      constructor <;> norm_num
    rw [h2]
    rfl
  have h2 : segsDuration (livePassSegments (3/2) 0 0 0 (liveWordsEmitted (3/2) 2 5 0)) = 3 := by
    rw [h, livePassSegments_duration (3/2) 0 0 0 le_rfl le_rfl (by norm_num [EPS]) 2]
    norm_num [max_def]
  exact ⟨h, h2, by rw [h2]; norm_num⟩

/-- Claim C2, amended: the EXPORTER truncates exactly at the frame
budget, even mid-word: a ByBars pass emits `min (n * wordFrames)
barLimit` frames.  The LIVE scheduler checks the budget only before
starting each word, so it emits `min n ⌈budget / wordDuration⌉` whole
words — a started word always completes, and the live pass may overrun
the budget by up to one word.  In the spec's example (budget 2 s,
wordDuration 1 s, 5 words) both paths emit exactly 2 words and nothing
of the 3rd. -/
theorem c2_amended (d budget gap : ℚ) (n fiF mainF foF gapF b : ℕ) (hd : 0 < d) :
    liveWordsEmitted d budget n 0 = min n (⌈budget / d⌉.toNat) ∧
    runPass gap fiF mainF foF gapF (some b) n 0 =
      min (n * (fiF + mainF + (if 0 ≤ gap then foF else 0) +
        (if 0 < gap then gapF else 0))) b := by
  constructor
  · rw [liveWordsEmitted_eq d budget hd n 0, sub_zero]
  · rw [runPass_some gap fiF mainF foF gapF b n 0 (Nat.zero_le b), Nat.zero_add]

theorem c2_amended_witness :
    liveWordsEmitted 1 2 5 0 = min 5 (⌈(2 : ℚ) / 1⌉.toNat) ∧
    runPass 0 0 30 0 0 (some 60) 5 0 =
      min (5 * (0 + 30 + (if (0 : ℚ) ≤ 0 then 0 else 0) +
        (if (0 : ℚ) < 0 then 0 else 0))) 60 :=
  c2_amended 1 2 0 5 0 30 0 0 60 (by norm_num)

/-! ## Claim C3 (fade-out emission condition) -/

/-- Claim C3, counterexample: with fade-out duration 1/40 s (note token
"1/32" at bpm 300), gap 0 and fps 24, the claim's condition holds
(fade-out > 0 and gap ≥ 0) yet the export path emits
`int(0.025 * 24) = 0` fade-out frames — no FadeOut phase at all. -/
theorem c3_counterexample :
    exportFadeOutCount 0 (1/40) 24 = 0 ∧ (0 : ℚ) < 1/40 ∧ (0 : ℚ) ≤ 0 := by
  refine ⟨?_, by norm_num, le_refl 0⟩
  unfold exportFadeOutCount
  rw [if_pos (le_refl (0 : ℚ)),
    show fade_out_f (1/40) 24 = pyInt ((1/40 : ℚ) * 24) from rfl,
    pyInt_eq_floor (by norm_num)]
  have h : ⌊(1/40 : ℚ) * 24⌋ = 0 := by norm_num
  rw [h]
  rfl

/-- Claim C3, amended: in the live path a FadeOut segment is present
iff fade-out duration > 0 and gap ≥ 0, exactly as claimed; in the
export path the fade-out block is guarded by gap ≥ 0 alone and holds
`⌊fadeOut * fps⌋` frames, so at least one fade-out frame is emitted iff
gap ≥ 0 and `fadeOut * fps ≥ 1`.  Whenever gap < 0 the fade-out is
skipped entirely in both paths. -/
theorem c3_amended (word_dur fade_in fade_out gap fps : ℚ) (hasPrev : Bool)
    (hfo : 0 ≤ fade_out) (hfps : 0 < fps) :
    ((∃ s ∈ wordSegments word_dur fade_in fade_out gap hasPrev,
        s.kind = SegKind.FadeOut) ↔ (0 < fade_out ∧ 0 ≤ gap)) ∧
    (0 < exportFadeOutCount gap fade_out fps ↔ (0 ≤ gap ∧ 1 ≤ fade_out * fps)) := by
  constructor
  · constructor
    · rintro ⟨s, hs, hk⟩
      unfold wordSegments at hs
      simp only [List.mem_append] at hs
      rcases hs with ((h | h) | h) | h
      · split at h
        · simp only [List.mem_singleton] at h
          rw [h] at hk
          exact absurd hk (by simp)
        · exact absurd h (List.not_mem_nil s)
      · simp only [List.mem_singleton] at h
        rw [h] at hk
        exact absurd hk (by simp)
      · split at h
        · assumption
        · exact absurd h (List.not_mem_nil s)
      · split at h
        · simp only [List.mem_singleton] at h
          rw [h] at hk
          exact absurd hk (by simp)
        · exact absurd h (List.not_mem_nil s)
    · rintro ⟨hf, hg⟩
      refine ⟨Segment.mk SegKind.FadeOut fade_out false, ?_, rfl⟩
      unfold wordSegments
      have h : (if 0 < fade_out ∧ 0 ≤ gap
          then [Segment.mk SegKind.FadeOut fade_out false] else []) =
          [Segment.mk SegKind.FadeOut fade_out false] := if_pos ⟨hf, hg⟩
      simp [h]
  · unfold exportFadeOutCount
    split_ifs with hg
    · rw [show fade_out_f fade_out fps = pyInt (fade_out * fps) from rfl,
        pyInt_eq_floor (mul_nonneg hfo hfps.le)]
      constructor
      · intro h
        refine ⟨hg, ?_⟩
        have h1 : (1 : ℤ) ≤ ⌊fade_out * fps⌋ := by omega
        exact_mod_cast Int.le_floor.mp h1
      · rintro ⟨-, h⟩
        have h1 : (1 : ℤ) ≤ ⌊fade_out * fps⌋ := Int.le_floor.mpr (by exact_mod_cast h)
        omega
    · simp only [Nat.lt_irrefl, false_iff]
      rintro ⟨h, -⟩
      exact hg h

theorem c3_amended_witness :
    ((∃ s ∈ wordSegments (1/2) (1/10) (1/10) 0 false,
        s.kind = SegKind.FadeOut) ↔ ((0 : ℚ) < 1/10 ∧ (0 : ℚ) ≤ 0)) ∧
    (0 < exportFadeOutCount 0 (1/10) 30 ↔ ((0 : ℚ) ≤ 0 ∧ (1 : ℚ) ≤ (1/10) * 30)) :=
  c3_amended (1/2) (1/10) (1/10) 0 30 false (by norm_num) (by norm_num)

/-! ## Claim C9 (cross-dissolve opacity invariant) -/

/-- Claim C9, confirmed: during a cross-dissolving fade-in (gap < 0 and
a previous word exists) every sampled step of both the live loop and
the exporter satisfies incoming + outgoing opacity = 1; and the
previous-word reference (non-zero outgoing opacity) occurs exactly
when gap < 0 and a previous word exists — otherwise every sample has
outgoing opacity 0. -/
theorem c9_crossfade (gap : ℚ) (hasPrev : Bool) (fiF : ℕ) (hfi : 0 < fiF) :
    ((gap < 0 ∧ hasPrev = true) ↔
      ((∀ p ∈ liveFadeInSamples gap hasPrev, p.1 + p.2 = 1) ∧
       (∀ p ∈ exportFadeInSamples gap hasPrev fiF, p.1 + p.2 = 1))) ∧
    (¬(gap < 0 ∧ hasPrev = true) →
      ((∀ p ∈ liveFadeInSamples gap hasPrev, p.2 = 0) ∧
       (∀ p ∈ exportFadeInSamples gap hasPrev fiF, p.2 = 0))) := by
  constructor
  · constructor
    · rintro ⟨hg, hp⟩
      constructor
      · intro p hpmem
        simp only [liveFadeInSamples, List.mem_map, List.mem_range] at hpmem
        obtain ⟨i, -, rfl⟩ := hpmem
        dsimp only
        rw [if_pos ⟨hg, hp⟩]
        ring
      · intro p hpmem
        simp only [exportFadeInSamples, List.mem_map, List.mem_range] at hpmem
        obtain ⟨i, -, rfl⟩ := hpmem
        have hcp : gap < 0 ∧ hasPrev = true := ⟨hg, hp⟩
        simp only [if_pos hfi, if_pos hcp]
        ring
    · rintro ⟨hlive, -⟩
      by_contra hcond
      have h0 : ((0 : ℚ), (0 : ℚ)) ∈ liveFadeInSamples gap hasPrev := by
        have he : ((0 : ℚ), (0 : ℚ)) =
            (((0 : ℕ) : ℚ) / fade_steps,
             if gap < 0 ∧ hasPrev = true then 1 - ((0 : ℕ) : ℚ) / fade_steps else 0) := by
          rw [if_neg hcond]
          norm_num
        rw [he]
        exact List.mem_map_of_mem _ (List.mem_range.mpr (Nat.succ_pos fade_steps))
      have := hlive _ h0
      norm_num at this
  · intro hcond
    constructor
    · intro p hpmem
      simp only [liveFadeInSamples, List.mem_map, List.mem_range] at hpmem
      obtain ⟨i, -, rfl⟩ := hpmem
      dsimp only
      rw [if_neg hcond]
    · intro p hpmem
      simp only [exportFadeInSamples, List.mem_map, List.mem_range] at hpmem
      obtain ⟨i, -, rfl⟩ := hpmem
      dsimp only
      rw [if_neg hcond]

theorem c9_crossfade_witness :
    (((-1/4 : ℚ) < 0 ∧ true = true) ↔
      ((∀ p ∈ liveFadeInSamples (-1/4) true, p.1 + p.2 = 1) ∧
       (∀ p ∈ exportFadeInSamples (-1/4) true 3, p.1 + p.2 = 1))) ∧
    (¬((-1/4 : ℚ) < 0 ∧ true = true) →
      ((∀ p ∈ liveFadeInSamples (-1/4) true, p.2 = 0) ∧
       (∀ p ∈ exportFadeInSamples (-1/4) true 3, p.2 = 0))) :=
  c9_crossfade (-1/4) true 3 (by norm_num)

theorem metroFinal_ge (spb : ℚ) : ∀ (qs : List ℚ) (mb : ℕ), mb ≤ metroFinal spb mb qs := by
  intro qs
  induction qs with
  | nil => intro mb; exact le_refl mb
  | cons e es ih =>
    intro mb
    unfold metroFinal
    split_ifs with h
    · exact le_trans (Nat.le_succ mb) (ih (mb + 1))
    · exact ih mb

theorem metroRun_eq_range (spb : ℚ) : ∀ (qs : List ℚ) (mb : ℕ),
    metroRun spb mb qs = List.range' mb (metroFinal spb mb qs - mb) := by
  intro qs
  induction qs with
  | nil => intro mb; simp [metroRun, metroFinal]
  | cons e es ih =>
    intro mb
    unfold metroRun metroFinal
    split_ifs with h
    · rw [ih (mb + 1)]
      have h1 : mb + 1 ≤ metroFinal spb (mb + 1) es := metroFinal_ge spb es (mb + 1)
      have h2 : metroFinal spb (mb + 1) es - mb =
          (metroFinal spb (mb + 1) es - (mb + 1)) + 1 := by omega
      rw [h2]
      rfl
    · exact ih mb

theorem metroFinal_le (spb T : ℚ) (hspb : 0 < spb) :
    ∀ (qs : List ℚ) (mb : ℕ), (∀ e ∈ qs, e ≤ T) → mb ≤ ⌊T / spb⌋.toNat + 1 →
      metroFinal spb mb qs ≤ ⌊T / spb⌋.toNat + 1 := by
  intro qs
  induction qs with
  | nil => intro mb _ hmb; exact hmb
  | cons e es ih =>
    intro mb hle hmb
    unfold metroFinal
    split_ifs with h
    · refine ih (mb + 1) (fun x hx => hle x (List.mem_cons_of_mem e hx)) ?_
      have he : e ≤ T := hle e (List.mem_cons_self e es)
      have h1 : (mb : ℚ) ≤ T / spb := (le_div_iff₀ hspb).mpr (le_trans h he)
      have h2 : (mb : ℤ) ≤ ⌊T / spb⌋ := Int.le_floor.mpr (by exact_mod_cast h1)
      omega
    · exact ih mb (fun x hx => hle x (List.mem_cons_of_mem e hx)) hmb

theorem metroFinal_lower (spb : ℚ) (hspb : 0 < spb) (K : ℕ) :
    ∀ (qs : List ℚ) (mb : ℕ), qs.Sorted (· ≤ ·) →
      (∀ j : ℕ, mb ≤ j → j ≤ K →
        ∃ e ∈ qs, (j : ℚ) * spb ≤ e ∧ e < ((j : ℚ) + 1) * spb) →
      K + 1 ≤ metroFinal spb mb qs := by
  intro qs
  induction qs with
  | nil =>
    intro mb _ hdense
    rcases Nat.lt_or_ge K mb with hK | hK
    · calc K + 1 ≤ mb := hK
        _ = metroFinal spb mb [] := rfl
    · obtain ⟨e, he, -⟩ := hdense mb le_rfl hK
      exact absurd he (List.not_mem_nil e)
  | cons e es ih =>
    intro mb hsort hdense
    have hsort' : es.Sorted (· ≤ ·) := hsort.of_cons
    have hord : ∀ w ∈ es, e ≤ w := (List.sorted_cons.mp hsort).1
    unfold metroFinal
    split_ifs with h
    · rcases Nat.lt_or_ge K mb with hK | hK
      · have := metroFinal_ge spb es (mb + 1)
        omega
      · obtain ⟨w, hw, hw1, hw2⟩ := hdense mb le_rfl hK
        have he_lt : e < ((mb : ℚ) + 1) * spb := by
          rcases List.mem_cons.mp hw with rfl | hwes
          · exact hw2
          · have := hord w hwes
            linarith
        refine ih (mb + 1) hsort' ?_
        intro j hj1 hj2
        obtain ⟨x, hx, hx1, hx2⟩ := hdense j (by omega) hj2
        refine ⟨x, ?_, hx1, hx2⟩
        rcases List.mem_cons.mp hx with rfl | hxes
        · exfalso
          have hj : ((mb : ℚ) + 1) ≤ (j : ℚ) := by exact_mod_cast hj1
          have : ((mb : ℚ) + 1) * spb ≤ (j : ℚ) * spb :=
            mul_le_mul_of_nonneg_right hj hspb.le
          linarith
        · exact hxes
    · push_neg at h
      refine ih mb hsort' ?_
      intro j hj1 hj2
      obtain ⟨x, hx, hx1, hx2⟩ := hdense j hj1 hj2
      refine ⟨x, ?_, hx1, hx2⟩
      rcases List.mem_cons.mp hx with rfl | hxes
      · exfalso
        have hj : (mb : ℚ) ≤ (j : ℚ) := by exact_mod_cast hj1
        have : (mb : ℚ) * spb ≤ (j : ℚ) * spb := mul_le_mul_of_nonneg_right hj hspb.le
        linarith
      · exact hxes

/-! ## Claim C4 (metronome tick exactness) -/

/-- Claim C4, confirmed: for any monotonically non-decreasing list of
elapsed-time queries over the interval [0, T] that hits every beat
interval `[k*spb, (k+1)*spb)` (the "frequent enough never to skip an
entire beat" condition), the metronome emits the beat indices
`0, 1, ..., ⌊T/spb⌋` exactly once each, in order — i.e. one tick per
crossed beat index with no duplicates, and `⌊T/spb⌋ + 1` ticks in
total, counting the tick at time 0. -/
theorem c4_metronome (spb T : ℚ) (qs : List ℚ) (hspb : 0 < spb) (hT : 0 ≤ T)
    (hsort : qs.Sorted (· ≤ ·)) (hle : ∀ e ∈ qs, e ≤ T)
    (hdense : ∀ k : ℕ, (k : ℚ) * spb ≤ T →
      ∃ e ∈ qs, (k : ℚ) * spb ≤ e ∧ e < ((k : ℚ) + 1) * spb) :
    metroRun spb 0 qs = List.range (⌊T / spb⌋.toNat + 1) := by
  have hupper := metroFinal_le spb T hspb qs 0 hle (Nat.zero_le _)
  have hlower : ⌊T / spb⌋.toNat + 1 ≤ metroFinal spb 0 qs := by
    refine metroFinal_lower spb hspb (⌊T / spb⌋.toNat) qs 0 hsort ?_
    intro j _ hj
    refine hdense j ?_
    have h0 : (0 : ℤ) ≤ ⌊T / spb⌋ := Int.floor_nonneg.mpr (div_nonneg hT hspb.le)
    have h1 : (j : ℤ) ≤ ⌊T / spb⌋ := by omega
    have h2 : (j : ℚ) ≤ T / spb := by exact_mod_cast Int.le_floor.mp h1
    exact (le_div_iff₀ hspb).mp h2
  have heq : metroFinal spb 0 qs = ⌊T / spb⌋.toNat + 1 := le_antisymm hupper hlower
  rw [metroRun_eq_range, heq, Nat.sub_zero, List.range_eq_range']

theorem c4_metronome_witness :
    metroRun 1 0 [0, 1/2, 1, 3/2, 2] = List.range (⌊(2 : ℚ) / 1⌋.toNat + 1) := by
  refine c4_metronome 1 2 [0, 1/2, 1, 3/2, 2] (by norm_num) (by norm_num)
    (by norm_num [List.sorted_cons]) (by norm_num [List.forall_mem_cons]) ?_
  intro k hk
  have hk2 : k ≤ 2 := by
    have h1 : (k : ℚ) ≤ 2 := by
      rw [mul_one] at hk
      exact hk
    exact_mod_cast h1
  interval_cases k
  · exact ⟨0, by norm_num, by norm_num⟩
  · exact ⟨1, by norm_num, by norm_num⟩
  · exact ⟨2, by norm_num, by norm_num⟩

/-! ## Claim C10 (infinite loop exports exactly one pass) -/

/-- Claim C10, confirmed: when looping is enabled with the infinite
flag set, the exporter computes `loops = 1`, so the total exported
frame count equals that of a single pass — export terminates with a
finite frame count instead of looping without bound. -/
theorem c10_infinite_single_pass (loopTimes : ℕ) (gap : ℚ)
    (fiF mainF foF gapF : ℕ) (barLimit : Option ℕ) (n : ℕ) :
    exportLoops true true loopTimes = 1 ∧
    exportTotalFrames gap fiF mainF foF gapF barLimit n (exportLoops true true loopTimes) =
      runPass gap fiF mainF foF gapF barLimit n 0 := by
  refine ⟨rfl, ?_⟩
  show exportTotalFrames gap fiF mainF foF gapF barLimit n 1 = _
  simp [exportTotalFrames]

end LyricLooper
